import Mathlib

/-!
Shallow embedding of the `geom-rs` planar geometry kernel
(`src/core.rs`, `src/points.rs`, `src/polygons.rs`, `src/ops.rs`).

Coordinates are embedded as rational numbers: every arithmetic operation the
kernel performs (addition, subtraction, multiplication, division, comparison,
absolute value, max) is exact on the inputs appearing in this development, so
the rational model mirrors the floating-point source formula for formula.
Fallible Rust functions returning `Result` are embedded as `Except`,
functions returning `Option` as `Option`, and the one panicking call site
(`unwrap` of `strip_suffix` in `MultiPoint::wkt`) is surfaced as an `Option`.
-/

namespace GeomRs

/-- Default absolute tolerance for float number comparisons (`core.rs` ATOL). -/
def ATOL : ℚ := 1 / 1000000000000

/-- Default relative tolerance for float number comparisons (`core.rs` RTOL). -/
def RTOL : ℚ := 1 / 1000000000

/-- Embedding of `core::is_close`: combined absolute/relative tolerance test
`|a - b| < atol + rtol * max |a| |b|`.  The Rust assertion `rtol >= 0 && atol >= 0`
holds for every call in the kernel (only the pinned constants are used). -/
def is_close (a b rtol atol : ℚ) : Bool :=
  decide (|a - b| < atol + rtol * max |a| |b|)

/-- Embedding of `core::approx`: `is_close` pinned to `RTOL`/`ATOL`. -/
def approx (a b : ℚ) : Bool :=
  is_close a b RTOL ATOL

/-- A single point on the plane (`points.rs` `Point`). -/
structure Point where
  x : ℚ
  y : ℚ
deriving DecidableEq, Repr

instance : Inhabited Point := ⟨⟨0, 0⟩⟩

/-- Embedding of `Point::gt_lex`: lexicographic strict greater-than,
comparing `x` exactly first, then `y` exactly. -/
def Point.gt_lex (self other : Point) : Bool :=
  decide (other.x < self.x) || (decide (self.x = other.x) && decide (other.y < self.y))

/-- Embedding of `Point::lt_lex`, defined as in the source via `gt_lex`. -/
def Point.lt_lex (self other : Point) : Bool :=
  other.gt_lex self

/-- Embedding of `Point::is_close`: both coordinates approximately equal. -/
def Point.is_close (self other : Point) : Bool :=
  approx self.x other.x && approx self.y other.y

/-- A collection of points (`points.rs` `MultiPoint`). -/
structure MultiPoint where
  points : List Point
deriving DecidableEq, Repr

/-- Embedding of `MultiPoint::new` (it performs no validation). -/
def MultiPoint.new (pts : List Point) : MultiPoint :=
  ⟨pts⟩

/-- Direction of a turn defined by a sequence of 3 points (`points.rs` `Turn`). -/
inductive Turn where
  | Right
  | Left
  | InLine
deriving DecidableEq, Repr

/-- Determinant computed by `points::direction` (twice the signed area of the
triangle `p1 p2 p3`). -/
def detTriple (p1 p2 p3 : Point) : ℚ :=
  (p2.x * p3.y) - (p2.y * p3.x) - (p1.x * p3.y) + (p1.y * p3.x)
    + (p1.x * p2.y) - (p1.y * p2.x)

/-- Embedding of `points::direction`: the 3-point orientation determinant,
classified as `InLine` when `approx det 0`, `Right` when `det < 0`, else `Left`. -/
def direction (p1 p2 p3 : Point) : Turn :=
  let det := detTriple p1 p2 p3
  if approx det 0 then Turn.InLine
  else if det < 0 then Turn.Right
  else Turn.Left

/-- Embedding of Rust's `str::strip_suffix`: `some` of the string with the
suffix removed when the suffix is present, `none` otherwise.  The check is
performed on the underlying character lists. -/
def stripSuffix (s suf : String) : Option String :=
  if suf.toList.isSuffixOf s.toList then some (s.dropRight suf.length) else none

/-- Body accumulated by the loop of `MultiPoint::wkt` before the suffix strip:
starting from the opening literal, append one comma-terminated coordinate pair
per point. -/
def mpWktBody (pts : List Point) : String :=
  pts.foldl (fun acc pt => acc ++ toString pt.x ++ " " ++ toString pt.y ++ ", ") "MULTIPOINT("

/-- Embedding of `MultiPoint::wkt`.  The source calls
`out.strip_suffix(", ").unwrap()`; the `unwrap` of a missing suffix is a panic,
modelled here as `none`. -/
def MultiPoint.wkt (mp : MultiPoint) : Option String :=
  (stripSuffix (mpWktBody mp.points) ", ").map (fun s => s ++ ")")

/-- Embedding of `points::quick_sort`, recursion made structural on an explicit
bound (`fuel`); `quick_sort` below instantiates `fuel` with the list length,
which always suffices because each recursive call works on a strictly shorter
list (this is the termination argument of the Rust recursion).
The source swaps the middle element (the pivot) to the last slot and Lomuto
partitions the first `len - 1` slots; `scanned` below is exactly that scanned
region (the swap's write of the pivot into the last slot is dropped with it).
The Lomuto scan keeps the elements below the pivot in scan order and the
remaining elements in an order immaterial to the recursive sort; both sides
are embedded as filters of the scanned region. -/
def quickSortFuel : Nat → List Point → List Point
  | 0, l => l
  | fuel + 1, l =>
    if l.length ≤ 1 then l
    else
      let li := l.length - 1
      let mid := l.length / 2
      let pivot := l.getD mid default
      let scanned := (l.set mid (l.getD li default)).dropLast
      let left := scanned.filter (fun p => p.lt_lex pivot)
      let right := scanned.filter (fun p => !(p.lt_lex pivot))
      quickSortFuel fuel left ++ pivot :: quickSortFuel fuel right

/-- Embedding of `points::quick_sort` at its natural recursion bound. -/
def quick_sort (l : List Point) : List Point :=
  quickSortFuel l.length l

/-- Embedding of `points::sort_lex`. -/
def sort_lex (pts : List Point) : List Point :=
  quick_sort pts

/-- Errors raised by the library (`core.rs` `GeometryError`). -/
inductive GeometryError where
  | ParsingError (msg : String)
  | ParameterError (msg : String)
  | OperationError (msg : String)
deriving DecidableEq, Repr

/-- A polygon on the plane (`polygons.rs` `Polygon`): the closed outer ring. -/
structure Polygon where
  outer : List Point
deriving DecidableEq, Repr

/-- Embedding of `Polygon::from_points`: at least 4 points and a
tolerance-closed ring are required.  The count interpolated into the first
message is `pts.len() - 1`, embedded with truncated natural subtraction. -/
def Polygon.from_points (pts : List Point) : Except String Polygon :=
  if pts.length < 4 then
    Except.error ("Too few points to create a polygon: " ++ toString (pts.length - 1) ++ "!")
  else if !((pts.getD 0 default).is_close (pts.getD (pts.length - 1) default)) then
    Except.error "To make polygon, the first and last points must match!"
  else
    Except.ok ⟨pts⟩

/-- Modelled from the spec: `Polygon::new(points) -> Result<Polygon, Error>`
(§6) is called by `ops.rs` but its definition is not among the provided
sources; per §3/§7/§8 it validates exactly the construction invariant of
`from_points` — a parameter error for fewer than 4 points or a mismatched
(not tolerance-closed) ring, otherwise the polygon with that outer ring. -/
def Polygon.new (pts : List Point) : Except GeometryError Polygon :=
  match Polygon.from_points pts with
  | Except.ok poly => Except.ok poly
  | Except.error msg => Except.error (GeometryError.ParameterError msg)

/-- Ring edges traversed by `Polygon::contains`: index pair
`(seg_start, (seg_start + 1) % len)` for every `seg_start` below `len`. -/
def Polygon.ringEdges (poly : Polygon) : List (Point × Point) :=
  poly.outer.zip (poly.outer.rotate 1)

/-- Loop body of `Polygon::contains` over the remaining edges, carrying the
crossing counter; the source's early `return true` ends the recursion. -/
def containsAux (pt : Point) : List (Point × Point) → Nat → Bool
  | [], cnt => decide (cnt % 2 ≠ 0)
  | (st, en) :: rest, cnt =>
    if st.x < pt.x ∧ en.x < pt.x then
      containsAux pt rest cnt
    else if pt.is_close en || pt.is_close st then
      true
    else if pt.y = st.y ∧ pt.y = en.y then
      if st.x ≤ pt.x ∧ pt.x ≤ en.x then true else containsAux pt rest cnt
    else if (pt.y - st.y) * (pt.y - en.y) < 0 then
      containsAux pt rest (cnt + 1)
    else
      containsAux pt rest cnt

/-- Embedding of `Polygon::contains` (ray casting, even-odd rule). -/
def Polygon.contains (poly : Polygon) (pt : Point) : Bool :=
  containsAux pt poly.ringEdges 0

/-- Embedding of `Polygon::is_convex`.  The reference turn is taken at the
seam (`outer[len-2]`, `outer[0]`, `outer[1]`); the loop then compares, for
every `i` below `len - 2`, the turn of the triple
(`outer[i]`, `outer[(i+1) % len]`, `outer[(i+3) % len]`) — note the source
index `i + 3`, which skips a vertex.  List indexing is embedded with `getD`;
every polygon the library constructs has at least 4 points, keeping all the
accesses of the source in bounds. -/
def Polygon.is_convex (poly : Polygon) : Bool :=
  let n := poly.outer.length
  let initial := direction (poly.outer.getD (n - 2) default)
    (poly.outer.getD 0 default) (poly.outer.getD 1 default)
  (List.range (n - 2)).all (fun i =>
    decide (direction (poly.outer.getD i default)
      (poly.outer.getD ((i + 1) % n) default)
      (poly.outer.getD ((i + 3) % n) default) = initial))

/-- Edge sum of `Polygon::shoelace` over the successive pairs of a point list
(the source iterates `outer.iter().zip(&outer[1..])`). -/
def shoelaceAux : List Point → ℚ
  | p :: q :: rest => (q.x - p.x) * (q.y + p.y) + shoelaceAux (q :: rest)
  | _ => 0

/-- Embedding of `Polygon::shoelace`: twice the oriented area of the ring. -/
def Polygon.shoelace (poly : Polygon) : ℚ :=
  shoelaceAux poly.outer

/-- Embedding of `Polygon::area`: absolute shoelace sum halved. -/
def Polygon.area (poly : Polygon) : ℚ :=
  |poly.shoelace| / 2

/-- Orientation of a polygon's vertices (`polygons.rs` `Orientation`). -/
inductive Orientation where
  | Clockwise
  | CounterClockwise
deriving DecidableEq, Repr

/-- Embedding of `Polygon::orientation`: positive shoelace sum means
`Clockwise`, anything else (including zero) means `CounterClockwise`. -/
def Polygon.orientation (poly : Polygon) : Orientation :=
  if 0 < poly.shoelace then Orientation.Clockwise else Orientation.CounterClockwise

/-- Embedding of `Polygon::reverse_orientation`: the in-place `Vec::reverse`
of the source becomes a functional update of the ring. -/
def Polygon.reverse_orientation (poly : Polygon) : Polygon :=
  ⟨poly.outer.reverse⟩

/-- Decidable equality for `Except`, so concrete kernel results can be
compared by evaluation. -/
instance {ε α : Type} [DecidableEq ε] [DecidableEq α] : DecidableEq (Except ε α)
  | Except.ok a, Except.ok b =>
    if h : a = b then isTrue (h ▸ rfl) else isFalse (fun hh => h (Except.ok.inj hh))
  | Except.ok _, Except.error _ => isFalse (fun hh => Except.noConfusion hh)
  | Except.error _, Except.ok _ => isFalse (fun hh => Except.noConfusion hh)
  | Except.error a, Except.error b =>
    if h : a = b then isTrue (h ▸ rfl) else isFalse (fun hh => h (Except.error.inj hh))

/-- Pop phase of `ops::half_hull`: with the hull stack held head-first
(head = most recently pushed point), pop while the stack keeps more than one
point and the last two points together with the incoming point do not form a
`Right` turn. -/
def popStep (pt : Point) : List Point → List Point
  | p1 :: p2 :: rest =>
    if direction p2 p1 pt = Turn.Right then p1 :: p2 :: rest
    else popStep pt (p2 :: rest)
  | l => l

/-- Embedding of `ops::half_hull`: fold every point through pop-then-push.
The source pushes the first two points unconditionally; that branch coincides
with pop-then-push because `popStep` is the identity on stacks of fewer than
two points.  The stack is reversed at the end to recover `Vec` order. -/
def half_hull (points : List Point) : List Point :=
  (points.foldl (fun acc pt => pt :: popStep pt acc) []).reverse

/-- Embedding of `ops::convex_hull`: `none` for fewer than 3 points, else
sort, build the two half hulls (dropping the seam duplicate from the first),
and construct the ring — a failed polygon construction is reported `none`. -/
def convex_hull (points : List Point) : Option Polygon :=
  if points.length < 3 then none
  else
    let source_points := sort_lex points
    let hull := (half_hull source_points).dropLast
    let lower_hull := half_hull source_points.reverse
    match Polygon.new (hull ++ lower_hull) with
    | Except.ok poly => some poly
    | Except.error _ => none

/-- Embedding of `ops::intersection_with_line`: parametric intersection of
`seg` with the (optionally bounded) line through `line`, by Cramer's rule;
`none` when the determinant is tolerance-zero or a parameter bound fails. -/
def intersection_with_line (line seg : Point × Point) (in_bounds : Bool) : Option Point :=
  let a := line.1
  let b := line.2
  let c := seg.1
  let d := seg.2
  let det := (b.x - a.x) * (c.y - d.y) - (b.y - a.y) * (c.x - d.x)
  if approx det 0 then none
  else
    let t1 := ((c.y - d.y) * (c.x - a.x) + (d.x - c.x) * (c.y - a.y)) / det
    let t2 := ((a.y - b.y) * (c.x - a.x) + (b.x - a.x) * (c.y - a.y)) / det
    if !(decide (0 ≤ t2) && decide (t2 ≤ 1)) then none
    else if !in_bounds || (decide (0 ≤ t1) && decide (t1 ≤ 1)) then
      some ⟨t1 * b.x + (1 - t1) * a.x, t1 * b.y + (1 - t1) * a.y⟩
    else none

/-- Embedding of `ops::intersection_point`: bounded segment intersection. -/
def intersection_point (s1 s2 : Point × Point) : Option Point :=
  intersection_with_line s1 s2 true

/-- Modelled from the spec: `Polygon::edges` is called by `clip_polygon` but
its definition is not among the provided sources; per §4.7 it yields the
directed edges `(ce1, ce2)` of the ring in order, i.e. the successive pairs
of the point sequence (the shape `LineString::edges` implements). -/
def Polygon.edges (poly : Polygon) : List (Point × Point) :=
  poly.outer.zip poly.outer.tail

/-- Inner loop of `ops::clip_polygon` for one clip edge: filter the working
vertex list against the half-plane of `(ce1, ce2)`, emitting inside vertices
and computed crossings, or an operation error when an expected intersection
cannot be computed. -/
def clipEdgeAux (ce1 ce2 : Point) (turnDir : Turn) (vertices : List Point) :
    Except GeometryError (List Point) :=
  (List.range vertices.length).foldlM (fun clipped i =>
    let s1 := vertices.getD i default
    let s2 := vertices.getD ((i + 1) % vertices.length) default
    let s1_in := direction ce1 ce2 s1 = turnDir
    let s2_in := direction ce1 ce2 s2 = turnDir
    if s1_in then
      if s2_in then Except.ok (clipped ++ [s1])
      else
        match intersection_with_line (ce1, ce2) (s1, s2) false with
        | some pt => Except.ok (clipped ++ [s1, pt])
        | none => Except.error (GeometryError.OperationError "Could not find intersection!")
    else if s2_in then
      match intersection_with_line (ce1, ce2) (s1, s2) false with
      | some pt => Except.ok (clipped ++ [pt])
      | none => Except.error (GeometryError.OperationError "Could not find intersection!")
    else Except.ok clipped) []

/-- Outer loop of `ops::clip_polygon` over the clip edges: each round rebuilds
the working vertex list; an empty result short-circuits to `none`. -/
def clipLoop (turnDir : Turn) : List (Point × Point) → List Point →
    Except GeometryError (Option (List Point))
  | [], vertices => Except.ok (some vertices)
  | (ce1, ce2) :: rest, vertices =>
    match clipEdgeAux ce1 ce2 turnDir vertices with
    | Except.error e => Except.error e
    | Except.ok clipped =>
      if clipped.isEmpty then Except.ok none
      else clipLoop turnDir rest clipped

/-- Embedding of `ops::clip_polygon` (Sutherland–Hodgman): reject a non-convex
clip polygon with a parameter error, derive the inside turn direction from the
clip orientation, filter the subject ring (closing duplicate removed) against
every clip edge, then close and construct the result ring. -/
def clip_polygon (subject clip : Polygon) : Except GeometryError (Option Polygon) :=
  if !clip.is_convex then
    Except.error (GeometryError.ParameterError "The clipping polygon must be convex!")
  else
    let turnDir := match clip.orientation with
      | Orientation.Clockwise => Turn.Right
      | Orientation.CounterClockwise => Turn.Left
    let vertices := subject.outer.dropLast
    match clipLoop turnDir clip.edges vertices with
    | Except.error e => Except.error e
    | Except.ok none => Except.ok none
    | Except.ok (some verts) =>
      match Polygon.new (verts ++ [verts.getD 0 default]) with
      | Except.ok poly => Except.ok (some poly)
      | Except.error e => Except.error e

unseal Rat.add Rat.mul Rat.sub Rat.inv

/-! Concrete fixtures used by the theorems below: the unit square ring and the
triangle ring of the library's own clipping test, the seven points of the
`convex_hull` doc example, and small degenerate rings. -/

/-- Unit square ring `[(0,0),(0,1),(1,1),(1,0),(0,0)]`. -/
def unitSquare : Polygon :=
  ⟨[⟨0, 0⟩, ⟨0, 1⟩, ⟨1, 1⟩, ⟨1, 0⟩, ⟨0, 0⟩]⟩

/-- Triangle ring `[(0.5,0.5),(1.5,1.0),(1.5,0.0),(0.5,0.5)]`. -/
def clipTriangle : Polygon :=
  ⟨[⟨1/2, 1/2⟩, ⟨3/2, 1⟩, ⟨3/2, 0⟩, ⟨1/2, 1/2⟩]⟩

/-- All triples drawn from the list are exactly collinear (zero determinant). -/
def AllCollinear (pts : List Point) : Prop :=
  ∀ p ∈ pts, ∀ q ∈ pts, ∀ r ∈ pts, detTriple p q r = 0

instance (pts : List Point) : Decidable (AllCollinear pts) := by
  unfold AllCollinear
  infer_instance

/-- C1: clipping the unit square against the triangle
`[(0.5,0.5),(1.5,1.0),(1.5,0.0),(0.5,0.5)]` does not succeed: `is_convex`
rejects every 4-point triangle ring (its first gapped triple reuses the
closing vertex and is `InLine`), so `clip_polygon` reports a parameter error
instead of the polygon the spec scenario and the repository's own
`test_clipping` expect. -/
theorem clip_unit_square_triangle_rejected :
    clipTriangle.is_convex = false ∧
    clip_polygon unitSquare clipTriangle =
      Except.error (GeometryError.ParameterError "The clipping polygon must be convex!") := by
  decide

/-- C6: whenever the clip polygon fails `is_convex`, `clip_polygon` returns a
parameter error at once — before touching the subject polygon — and never a
(possibly empty) clipping result. -/
theorem clip_polygon_nonconvex_clip_parameter_error (subject clip : Polygon)
    (h : clip.is_convex = false) :
    clip_polygon subject clip =
      Except.error (GeometryError.ParameterError "The clipping polygon must be convex!") := by
  simp [clip_polygon, h]

/-- C6 witness: the triangle ring is reported non-convex and clipping the unit
square against it errors out. -/
theorem clip_polygon_nonconvex_clip_parameter_error_witness :
    clip_polygon unitSquare clipTriangle =
      Except.error (GeometryError.ParameterError "The clipping polygon must be convex!") :=
  clip_polygon_nonconvex_clip_parameter_error unitSquare clipTriangle (by decide)

/-- C3 counterexample: for the triangle ring `[(0,0),(0,1),(1,1),(0,0)]` of
the repository's own convexity test, every consecutive triple of ring
vertices — `(outer[0],outer[1],outer[2])` and `(outer[1],outer[2],outer[3])`,
`outer[3]` closing back to `outer[0]` — has exactly the turn of the seam
reference `(outer[2],outer[0],outer[1])`, yet `is_convex` answers `false`:
the code does not compare consecutive triples. -/
theorem is_convex_consecutive_triples_counterexample :
    direction ⟨0, 0⟩ ⟨0, 1⟩ ⟨1, 1⟩ = direction ⟨1, 1⟩ ⟨0, 0⟩ ⟨0, 1⟩ ∧
    direction ⟨0, 1⟩ ⟨1, 1⟩ ⟨0, 0⟩ = direction ⟨1, 1⟩ ⟨0, 0⟩ ⟨0, 1⟩ ∧
    Polygon.is_convex ⟨[⟨0, 0⟩, ⟨0, 1⟩, ⟨1, 1⟩, ⟨0, 0⟩]⟩ = false := by
  decide

/-- C3 (amended): `is_convex` returns `true` exactly when, for every `i` below
`len - 2`, the turn of the gapped triple
(`outer[i]`, `outer[(i+1) % len]`, `outer[(i+3) % len]`) equals the seam
reference turn of (`outer[len-2]`, `outer[0]`, `outer[1]`); the skipped index
`i + 3` is what rejects a 4-point triangle ring. -/
theorem is_convex_checks_gapped_triples (p : Polygon) :
    p.is_convex = true ↔
      ∀ i < p.outer.length - 2,
        direction (p.outer.getD i default)
          (p.outer.getD ((i + 1) % p.outer.length) default)
          (p.outer.getD ((i + 3) % p.outer.length) default) =
        direction (p.outer.getD (p.outer.length - 2) default)
          (p.outer.getD 0 default) (p.outer.getD 1 default) := by
  simp [Polygon.is_convex, List.all_eq_true, List.mem_range]

/-- C3 witness: instantiating the characterisation at the unit square yields
the concrete turn equality of its first gapped triple. -/
theorem is_convex_checks_gapped_triples_witness :
    direction (unitSquare.outer.getD 0 default)
      (unitSquare.outer.getD (1 % unitSquare.outer.length) default)
      (unitSquare.outer.getD (3 % unitSquare.outer.length) default) =
    direction (unitSquare.outer.getD (unitSquare.outer.length - 2) default)
      (unitSquare.outer.getD 0 default) (unitSquare.outer.getD 1 default) :=
  (is_convex_checks_gapped_triples unitSquare).mp (by decide) 0 (by decide)

/-- C8 counterexample: the ring `[(0,0),(1,0),(0,0),(0,0)]` is accepted by
`from_points`, and its shoelace sum is zero, so `orientation` answers
`CounterClockwise` both before and after `reverse_orientation`: reversal does
not flip the reported orientation of a zero-shoelace polygon. -/
theorem reverse_orientation_zero_shoelace_counterexample :
    Polygon.from_points [⟨0, 0⟩, ⟨1, 0⟩, ⟨0, 0⟩, ⟨0, 0⟩] =
      Except.ok ⟨[⟨0, 0⟩, ⟨1, 0⟩, ⟨0, 0⟩, ⟨0, 0⟩]⟩ ∧
    Polygon.orientation ⟨[⟨0, 0⟩, ⟨1, 0⟩, ⟨0, 0⟩, ⟨0, 0⟩]⟩ = Orientation.CounterClockwise ∧
    Polygon.orientation (Polygon.reverse_orientation ⟨[⟨0, 0⟩, ⟨1, 0⟩, ⟨0, 0⟩, ⟨0, 0⟩]⟩) =
      Orientation.CounterClockwise := by
  decide

/-- Tolerance comparison of points is symmetric. -/
theorem point_is_close_comm (a b : Point) : a.is_close b = b.is_close a := by
  simp [Point.is_close, approx, is_close, abs_sub_comm, max_comm]

/-- First and last entries swap under `List.reverse` (read through `getD`). -/
theorem getD_reverse_ends (l : List Point) (h : l ≠ []) :
    l.reverse.getD 0 default = l.getD (l.length - 1) default ∧
    l.reverse.getD (l.length - 1) default = l.getD 0 default := by
  have hpos : 0 < l.length := List.length_pos.mpr h
  constructor
  · rw [List.getD_eq_getElem l.reverse default (by simpa using hpos),
      List.getD_eq_getElem l default (by omega)]
    rw [List.getElem_reverse (by simpa using hpos)]
    congr 1
  · rw [List.getD_eq_getElem l.reverse default (by simp; omega),
      List.getD_eq_getElem l default (by omega)]
    rw [List.getElem_reverse (by simp; omega)]
    congr 1
    omega

/-- C4: `from_points` succeeds exactly when the list has at least 4 points
whose first entry is tolerance-close to its last; any constructed polygon
carries that ring invariant, and still carries it after
`reverse_orientation`. -/
theorem from_points_validates_ring (pts : List Point) :
    ((Polygon.from_points pts).isOk = true ↔
      (4 ≤ pts.length ∧
        (pts.getD 0 default).is_close (pts.getD (pts.length - 1) default) = true)) ∧
    ∀ q, Polygon.from_points pts = Except.ok q →
      (4 ≤ q.outer.length ∧
        (q.outer.getD 0 default).is_close (q.outer.getD (q.outer.length - 1) default) = true) ∧
      (4 ≤ q.reverse_orientation.outer.length ∧
        (q.reverse_orientation.outer.getD 0 default).is_close
          (q.reverse_orientation.outer.getD (q.reverse_orientation.outer.length - 1) default)
          = true) := by
  by_cases hlen : pts.length < 4
  · have he : Polygon.from_points pts =
        Except.error ("Too few points to create a polygon: " ++ toString (pts.length - 1) ++ "!") := by
      unfold Polygon.from_points
      rw [if_pos hlen]
    rw [he]
    refine ⟨⟨fun h => by simp [Except.isOk, Except.toBool] at h,
      fun h => absurd h.1 (by omega)⟩, fun q hq => by cases hq⟩
  · by_cases hclose : (pts.getD 0 default).is_close (pts.getD (pts.length - 1) default) = true
    · have he : Polygon.from_points pts = Except.ok ⟨pts⟩ := by
        unfold Polygon.from_points
        rw [if_neg hlen, hclose]
        simp
      rw [he]
      refine ⟨⟨fun _ => ⟨by omega, hclose⟩, fun _ => rfl⟩, ?_⟩
      intro q hq
      injection hq with hq'
      subst hq'
      have hne : pts ≠ [] := List.length_pos.mp (by omega)
      have houter : (Polygon.mk pts).outer = pts := rfl
      have hrev : (Polygon.mk pts).reverse_orientation.outer = pts.reverse := rfl
      refine ⟨⟨by rw [houter]; omega, by rw [houter]; exact hclose⟩, ?_⟩
      rw [hrev, List.length_reverse]
      refine ⟨by omega, ?_⟩
      rw [(getD_reverse_ends pts hne).1, (getD_reverse_ends pts hne).2, point_is_close_comm]
      exact hclose
    · have hclose' : (pts.getD 0 default).is_close (pts.getD (pts.length - 1) default) = false := by
        simpa using hclose
      have he : Polygon.from_points pts =
          Except.error "To make polygon, the first and last points must match!" := by
        unfold Polygon.from_points
        rw [if_neg hlen, hclose']
        simp
      rw [he]
      refine ⟨⟨fun h => by simp [Except.isOk, Except.toBool] at h, fun h => ?_⟩,
        fun q hq => by cases hq⟩
      have hx := h.2
      rw [hclose'] at hx
      cases hx

/-- C4 witness: the unit square ring is accepted and, constructed, satisfies
the closure invariant before and after reversal. -/
theorem from_points_validates_ring_witness :
    (Polygon.from_points [⟨0, 0⟩, ⟨0, 1⟩, ⟨1, 1⟩, ⟨1, 0⟩, ⟨0, 0⟩]).isOk = true ∧
    (4 ≤ unitSquare.outer.length ∧
      (unitSquare.outer.getD 0 default).is_close
        (unitSquare.outer.getD (unitSquare.outer.length - 1) default) = true) ∧
    (4 ≤ unitSquare.reverse_orientation.outer.length ∧
      (unitSquare.reverse_orientation.outer.getD 0 default).is_close
        (unitSquare.reverse_orientation.outer.getD
          (unitSquare.reverse_orientation.outer.length - 1) default) = true) :=
  ⟨(from_points_validates_ring [⟨0, 0⟩, ⟨0, 1⟩, ⟨1, 1⟩, ⟨1, 0⟩, ⟨0, 0⟩]).1.mpr (by decide),
    (from_points_validates_ring [⟨0, 0⟩, ⟨0, 1⟩, ⟨1, 1⟩, ⟨1, 0⟩, ⟨0, 0⟩]).2 unitSquare (by decide)⟩

/-- Every round of the `MultiPoint::wkt` loop leaves the accumulated string
ending in the separator, whatever it starts from. -/
theorem mpWktBody_ends_with_separator :
    ∀ (pts : List Point) (acc : String), pts ≠ [] →
      [',', ' '].isSuffixOf
        ((pts.foldl
          (fun acc pt => acc ++ toString pt.x ++ " " ++ toString pt.y ++ ", ") acc).toList)
        = true := by
  intro pts
  induction pts with
  | nil => intro _ h; cases h rfl
  | cons p rest ih =>
    intro acc _
    cases rest with
    | nil =>
      rw [List.isSuffixOf_iff_suffix]
      show [',', ' '] <:+ (acc ++ toString p.x ++ " " ++ toString p.y ++ ", ").toList
      have hsplit : (acc ++ toString p.x ++ " " ++ toString p.y ++ ", ").toList =
          (acc ++ toString p.x ++ " " ++ toString p.y).toList ++ [',', ' '] := by
        simp [String.toList]
      rw [hsplit]
      exact List.suffix_append _ _
    | cons q rest2 =>
      exact ih _ (by simp)

/-- C10: `MultiPoint::new` accepts the empty point list, but `wkt` on the
resulting value hits the `unwrap` of a failed suffix strip — the modelled
panic, `none` — while every nonempty `MultiPoint` formats to `some` string. -/
theorem multipoint_wkt_empty_panics :
    (MultiPoint.new []).wkt = none ∧
    ∀ pts, pts ≠ [] → ((MultiPoint.new pts).wkt).isSome = true := by
  constructor
  · decide
  · intro pts h
    simp only [MultiPoint.wkt, MultiPoint.new, Option.isSome_map]
    rw [stripSuffix]
    have hsuf : ((", " : String).toList).isSuffixOf ((mpWktBody pts).toList) = true := by
      have : (", " : String).toList = [',', ' '] := rfl
      rw [this, mpWktBody]
      exact mpWktBody_ends_with_separator pts _ h
    rw [hsuf]
    rfl

/-- C10 witness: the singleton multipoint formats successfully while the
empty one panics. -/
theorem multipoint_wkt_empty_panics_witness :
    ((MultiPoint.new [⟨0, 0⟩]).wkt).isSome = true :=
  multipoint_wkt_empty_panics.2 [⟨0, 0⟩] (by simp)

/-- Appending one point to a nonempty vertex chain extends the shoelace sum by
the closing edge term. -/
theorem shoelaceAux_snoc :
    ∀ (l : List Point) (p a : Point),
      shoelaceAux ((p :: l) ++ [a]) =
        shoelaceAux (p :: l) +
          (a.x - ((p :: l).getLast (by simp)).x) * (a.y + ((p :: l).getLast (by simp)).y) := by
  intro l
  induction l with
  | nil =>
    intro p a
    simp [shoelaceAux]
  | cons q rest ih =>
    intro p a
    have h1 : ((p :: q :: rest) ++ [a]) = p :: ((q :: rest) ++ [a]) := rfl
    have h2 : (q :: rest) ++ [a] = q :: (rest ++ [a]) := rfl
    rw [h1]
    show (q.x - p.x) * (q.y + p.y) + shoelaceAux ((q :: rest) ++ [a]) = _
    rw [ih q a]
    have h3 : (p :: q :: rest).getLast (by simp) = (q :: rest).getLast (by simp) := by
      simp [List.getLast_cons]
    rw [h3]
    show _ = (q.x - p.x) * (q.y + p.y) + shoelaceAux (q :: rest) + _
    ring

/-- Reversing the vertex list negates the shoelace sum. -/
theorem shoelaceAux_reverse : ∀ l : List Point, shoelaceAux l.reverse = - shoelaceAux l := by
  intro l
  induction l with
  | nil => simp [shoelaceAux]
  | cons p tail ih =>
    cases tail with
    | nil => simp [shoelaceAux]
    | cons q rest =>
      obtain ⟨r, rl, hr⟩ : ∃ r rl, (q :: rest).reverse = r :: rl := by
        cases hrev : (q :: rest).reverse with
        | nil =>
          rw [List.reverse_eq_nil_iff] at hrev
          cases hrev
        | cons r rl => exact ⟨r, rl, rfl⟩
      have h1 : (p :: q :: rest).reverse = (q :: rest).reverse ++ [p] := by
        simp
      rw [h1, hr, shoelaceAux_snoc]
      have h2 : (r :: rl).getLast (by simp) = q := by
        have ha : (r :: rl).getLast? = some q := by
          rw [← hr, List.getLast?_reverse]
          rfl
        rw [List.getLast?_eq_getLast _ (by simp)] at ha
        exact Option.some.inj ha
      rw [h2, ← hr, ih]
      show -shoelaceAux (q :: rest) + (p.x - q.x) * (p.y + q.y) =
        -((q.x - p.x) * (q.y + p.y) + shoelaceAux (q :: rest))
      ring

/-- C8 (amended): for every polygon with nonzero shoelace sum, reversing the
point sequence flips the result of `orientation`: `Clockwise` becomes
`CounterClockwise` and vice versa.  (A zero-shoelace polygon reports
`CounterClockwise` before and after, see the counterexample.) -/
theorem reverse_orientation_flips (p : Polygon) (h : p.shoelace ≠ 0) :
    (p.orientation = Orientation.Clockwise →
      p.reverse_orientation.orientation = Orientation.CounterClockwise) ∧
    (p.orientation = Orientation.CounterClockwise →
      p.reverse_orientation.orientation = Orientation.Clockwise) := by
  have hrev : p.reverse_orientation.shoelace = - p.shoelace := by
    show shoelaceAux p.outer.reverse = - shoelaceAux p.outer
    exact shoelaceAux_reverse p.outer
  rcases lt_trichotomy p.shoelace 0 with hneg | hzero | hpos
  · constructor
    · intro hcw
      rw [Polygon.orientation, if_neg (by linarith)] at hcw
      cases hcw
    · intro _
      rw [Polygon.orientation, hrev, if_pos (by linarith)]
  · exact absurd hzero h
  · constructor
    · intro _
      rw [Polygon.orientation, hrev, if_neg (by linarith)]
    · intro hccw
      rw [Polygon.orientation, if_pos hpos] at hccw
      cases hccw

/-- C8 witness: the half-square ring of the repository's orientation test is
`Clockwise` and reverses to `CounterClockwise`. -/
theorem reverse_orientation_flips_witness :
    (Polygon.reverse_orientation ⟨[⟨0, 0⟩, ⟨1, 1⟩, ⟨1, 0⟩, ⟨0, 0⟩]⟩).orientation =
      Orientation.CounterClockwise :=
  (reverse_orientation_flips ⟨[⟨0, 0⟩, ⟨1, 1⟩, ⟨1, 0⟩, ⟨0, 0⟩]⟩ (by decide)).1 (by decide)

/-- C5 counterexample: the unit square's bottom edge runs from `(1,0)` to
`(0,0)` (decreasing x), it is horizontal at the query height `y = 0`, and the
query `x = 1/2` lies between the endpoints' x coordinates — yet `contains`
answers `false`: the code compares the x-span in ring order only. -/
theorem contains_horizontal_span_counterexample :
    (unitSquare.outer.getD 3 default).y = (0 : ℚ) ∧
    (unitSquare.outer.getD (4 % unitSquare.outer.length) default).y = (0 : ℚ) ∧
    min (unitSquare.outer.getD 3 default).x
      (unitSquare.outer.getD (4 % unitSquare.outer.length) default).x ≤ 1 / 2 ∧
    (1 / 2 : ℚ) ≤ max (unitSquare.outer.getD 3 default).x
      (unitSquare.outer.getD (4 % unitSquare.outer.length) default).x ∧
    unitSquare.contains ⟨1 / 2, 0⟩ = false := by
  decide

/-- Whenever the remaining edge list holds a horizontal edge at the query
height whose ring-ordered x-span covers the query, the `contains` loop
answers `true` no matter the crossing count accumulated so far. -/
theorem containsAux_horizontal_edge (pt st en : Point)
    (hy1 : pt.y = st.y) (hy2 : pt.y = en.y)
    (hx1 : st.x ≤ pt.x) (hx2 : pt.x ≤ en.x) :
    ∀ (edges : List (Point × Point)) (cnt : Nat),
      (st, en) ∈ edges → containsAux pt edges cnt = true := by
  intro edges
  induction edges with
  | nil =>
    intro cnt hmem
    cases hmem
  | cons e rest ih =>
    intro cnt hmem
    obtain ⟨a, b⟩ := e
    rcases List.mem_cons.mp hmem with heq | hmem'
    · have h1 : st = a := congrArg Prod.fst heq
      have h2 : en = b := congrArg Prod.snd heq
      subst h1
      subst h2
      rw [containsAux]
      rw [if_neg (fun hc => absurd hc.2 (not_lt.mpr hx2))]
      by_cases hcl : (pt.is_close en || pt.is_close st) = true
      · rw [if_pos hcl]
      · rw [if_neg hcl, if_pos ⟨hy1, hy2⟩, if_pos ⟨hx1, hx2⟩]
    · rw [containsAux]
      split
      · exact ih _ hmem'
      · split
        · rfl
        · split
          · split
            · rfl
            · exact ih _ hmem'
          · split
            · exact ih _ hmem'
            · exact ih _ hmem'

/-- C5 (amended): if some ring edge is horizontal at exactly the query's y
and the query's x lies within the edge's x-span **in ring order** — start x
at most query x, query x at most end x — then `contains` returns `true`.
(An edge traversed with decreasing x does not trigger this rule, see the
counterexample.) -/
theorem contains_horizontal_edge_ring_order (poly : Polygon) (pt : Point) (i : Nat)
    (hi : i < poly.outer.length)
    (hy1 : pt.y = (poly.outer.getD i default).y)
    (hy2 : pt.y = (poly.outer.getD ((i + 1) % poly.outer.length) default).y)
    (hx1 : (poly.outer.getD i default).x ≤ pt.x)
    (hx2 : pt.x ≤ (poly.outer.getD ((i + 1) % poly.outer.length) default).x) :
    poly.contains pt = true := by
  have hrotlen : (poly.outer.rotate 1).length = poly.outer.length := by simp
  have hlen : poly.ringEdges.length = poly.outer.length := by
    simp [Polygon.ringEdges]
  have hi' : i < poly.ringEdges.length := by omega
  have hirot : i < (poly.outer.rotate 1).length := by omega
  have hmodlt : (i + 1) % poly.outer.length < poly.outer.length := Nat.mod_lt _ (by omega)
  have hedge : poly.ringEdges.getD i (default, default) =
      (poly.outer.getD i default,
        poly.outer.getD ((i + 1) % poly.outer.length) default) := by
    rw [List.getD_eq_getElem poly.ringEdges (default, default) hi']
    have hzip : poly.ringEdges[i] =
        (poly.outer[i], (poly.outer.rotate 1)[i]) := List.getElem_zip
    rw [hzip]
    have hrot : (poly.outer.rotate 1)[i] = poly.outer[(i + 1) % poly.outer.length] :=
      List.getElem_rotate poly.outer 1 i hirot
    rw [hrot, List.getD_eq_getElem poly.outer default hi,
      List.getD_eq_getElem poly.outer default hmodlt]
  have hmem : (poly.outer.getD i default,
      poly.outer.getD ((i + 1) % poly.outer.length) default) ∈ poly.ringEdges := by
    rw [← hedge, List.getD_eq_getElem poly.ringEdges (default, default) hi']
    exact List.getElem_mem hi'
  exact containsAux_horizontal_edge pt _ _ hy1 hy2 hx1 hx2 poly.ringEdges 0 hmem

/-- C5 witness: the top edge of the unit square runs left to right at `y = 1`
and its ring-ordered span covers `x = 1/2`, so `(1/2, 1)` is contained. -/
theorem contains_horizontal_edge_ring_order_witness :
    unitSquare.contains ⟨1 / 2, 1⟩ = true :=
  contains_horizontal_edge_ring_order unitSquare ⟨1 / 2, 1⟩ 1 (by decide)
    (by decide) (by decide) (by decide) (by decide)

/-- Characterisation of the lexicographic strict order of `gt_lex`. -/
theorem gt_lex_iff (a b : Point) :
    a.gt_lex b = true ↔ (b.x < a.x ∨ (a.x = b.x ∧ b.y < a.y)) := by
  simp [Point.gt_lex]

/-- Characterisation of the reflexive lexicographic order (`gt_lex` failing). -/
theorem not_gt_lex_iff (a b : Point) :
    a.gt_lex b = false ↔ (a.x < b.x ∨ (a.x = b.x ∧ a.y ≤ b.y)) := by
  simp only [Point.gt_lex, Bool.or_eq_false_iff, Bool.and_eq_false_iff,
    decide_eq_false_iff_not, not_lt]
  constructor
  · rintro ⟨h1, h2 | h2⟩
    · exact Or.inl (lt_of_le_of_ne h1 (fun he => h2 he))
    · rcases lt_or_eq_of_le h1 with hlt | heq
      · exact Or.inl hlt
      · exact Or.inr ⟨heq, h2⟩
  · rintro (h | ⟨hx, hy⟩)
    · exact ⟨le_of_lt h, Or.inl (ne_of_lt h)⟩
    · exact ⟨le_of_eq hx, Or.inr hy⟩

/-- A point strictly below another in the lexicographic order is not above it. -/
theorem not_gt_lex_of_gt_lex (a b : Point) (h : b.gt_lex a = true) :
    a.gt_lex b = false := by
  rw [gt_lex_iff] at h
  rw [not_gt_lex_iff]
  rcases h with h | ⟨hx, hy⟩
  · exact Or.inl h
  · exact Or.inr ⟨hx.symm, le_of_lt hy⟩

/-- Chaining a strict lexicographic bound below the pivot with a reflexive
bound above it. -/
theorem lex_lt_le_trans (a p b : Point) (h1 : p.gt_lex a = true) (h2 : p.gt_lex b = false) :
    a.gt_lex b = false := by
  rw [gt_lex_iff] at h1
  rw [not_gt_lex_iff] at h2 ⊢
  rcases h1 with h1 | ⟨hx1, hy1⟩ <;> rcases h2 with h2 | ⟨hx2, hy2⟩
  · exact Or.inl (lt_trans h1 h2)
  · exact Or.inl (hx2 ▸ h1)
  · exact Or.inl (hx1 ▸ h2)
  · exact Or.inr ⟨hx1.symm.trans hx2, le_trans (le_of_lt hy1) hy2⟩

/-- Putting the pivot back in front of the scanned region recovers the sorted
slice up to permutation: this is the partition step of `quick_sort`. -/
theorem pivot_scanned_perm (l : List Point) (h2 : 2 ≤ l.length) :
    List.Perm
      (l.getD (l.length / 2) default ::
        (l.set (l.length / 2) (l.getD (l.length - 1) default)).dropLast)
      l := by
  have hmidlt : l.length / 2 < l.length := by omega
  by_cases hcase : l.length / 2 < l.length - 1
  · have hlastlt : l.length - 1 < l.length := by omega
    have hpivot : l.getD (l.length / 2) default = l[l.length / 2] :=
      List.getD_eq_getElem l default hmidlt
    have hz : l.getD (l.length - 1) default = l[l.length - 1] :=
      List.getD_eq_getElem l default hlastlt
    have hset : l.set (l.length / 2) (l.getD (l.length - 1) default) =
        l.take (l.length / 2) ++ l.getD (l.length - 1) default ::
          l.drop (l.length / 2 + 1) := by
      rw [List.set_eq_take_append_cons_drop, if_pos hmidlt]
    have hdropne : l.drop (l.length / 2 + 1) ≠ [] := by
      apply List.ne_nil_of_length_pos
      rw [List.length_drop]
      omega
    have hscan : (l.set (l.length / 2) (l.getD (l.length - 1) default)).dropLast =
        l.take (l.length / 2) ++ l.getD (l.length - 1) default ::
          (l.drop (l.length / 2 + 1)).dropLast := by
      rw [hset, List.dropLast_append_of_ne_nil _ (by simp),
        List.dropLast_cons_of_ne_nil hdropne]
    have hlastdrop : (l.drop (l.length / 2 + 1)).getLast hdropne =
        l.getD (l.length - 1) default := by
      rw [List.getLast_eq_getElem, hz, List.getElem_drop]
      congr 1
      rw [List.length_drop]
      omega
    rw [hscan]
    have hstep1 : List.Perm
        (l.getD (l.length / 2) default ::
          (l.take (l.length / 2) ++ l.getD (l.length - 1) default ::
            (l.drop (l.length / 2 + 1)).dropLast))
        (l.take (l.length / 2) ++ l.getD (l.length / 2) default ::
          l.getD (l.length - 1) default :: (l.drop (l.length / 2 + 1)).dropLast) :=
      List.perm_middle.symm
    refine hstep1.trans ?_
    have hstep2 : List.Perm
        (l.getD (l.length / 2) default ::
          l.getD (l.length - 1) default :: (l.drop (l.length / 2 + 1)).dropLast)
        (l.getD (l.length / 2) default ::
          ((l.drop (l.length / 2 + 1)).dropLast ++ [l.getD (l.length - 1) default])) :=
      List.Perm.cons _ (List.perm_append_singleton _ _).symm
    refine (List.Perm.append_left (l.take (l.length / 2)) hstep2).trans ?_
    have hD : (l.drop (l.length / 2 + 1)).dropLast ++ [l.getD (l.length - 1) default] =
        l.drop (l.length / 2 + 1) := by
      rw [← hlastdrop]
      exact List.dropLast_append_getLast hdropne
    rw [hD, hpivot, List.getElem_cons_drop l (l.length / 2) hmidlt, List.take_append_drop]
  · have hlen2 : l.length = 2 := by omega
    match l, hlen2 with
    | [a, b], _ =>
      simp only [List.length_cons, List.length_nil, List.getD_cons_succ, List.getD_cons_zero,
        List.set, List.dropLast]
      exact List.Perm.swap a b []

/-- The scanned region of one `quick_sort` round is one element shorter than
the slice. -/
theorem scanned_length (l : List Point) :
    ((l.set (l.length / 2) (l.getD (l.length - 1) default)).dropLast).length =
      l.length - 1 := by
  rw [List.length_dropLast, List.length_set]

/-- `quickSortFuel` permutes its input whenever the bound covers the length. -/
theorem quickSortFuel_perm :
    ∀ (fuel : Nat) (l : List Point), l.length ≤ fuel →
      List.Perm (quickSortFuel fuel l) l := by
  intro fuel
  induction fuel with
  | zero =>
    intro l _
    exact List.Perm.refl l
  | succ fuel ih =>
    intro l hle
    by_cases hsmall : l.length ≤ 1
    · simp only [quickSortFuel, if_pos hsmall]
      exact List.Perm.refl l
    · simp only [quickSortFuel, if_neg hsmall]
      have hlenscan : ((l.set (l.length / 2)
          (l.getD (l.length - 1) default)).dropLast).length = l.length - 1 :=
        scanned_length l
      have hleft : (((l.set (l.length / 2) (l.getD (l.length - 1) default)).dropLast).filter
          (fun p => p.lt_lex (l.getD (l.length / 2) default))).length ≤ fuel := by
        have := List.length_filter_le
          (fun p => p.lt_lex (l.getD (l.length / 2) default))
          ((l.set (l.length / 2) (l.getD (l.length - 1) default)).dropLast)
        omega
      have hright : (((l.set (l.length / 2) (l.getD (l.length - 1) default)).dropLast).filter
          (fun p => !(p.lt_lex (l.getD (l.length / 2) default)))).length ≤ fuel := by
        have := List.length_filter_le
          (fun p => !(p.lt_lex (l.getD (l.length / 2) default)))
          ((l.set (l.length / 2) (l.getD (l.length - 1) default)).dropLast)
        omega
      refine (List.Perm.append (ih _ hleft) (List.Perm.cons _ (ih _ hright))).trans ?_
      refine List.perm_middle.trans ?_
      refine (List.Perm.cons _ (List.filter_append_perm _ _)).trans ?_
      exact pivot_scanned_perm l (by omega)

/-- `quickSortFuel` sorts its input into non-decreasing lexicographic order
whenever the bound covers the length. -/
theorem quickSortFuel_sorted :
    ∀ (fuel : Nat) (l : List Point), l.length ≤ fuel →
      (quickSortFuel fuel l).Pairwise (fun a b => a.gt_lex b = false) := by
  intro fuel
  induction fuel with
  | zero =>
    intro l hle
    have : l = [] := List.length_eq_zero.mp (by omega)
    subst this
    exact List.Pairwise.nil
  | succ fuel ih =>
    intro l hle
    by_cases hsmall : l.length ≤ 1
    · simp only [quickSortFuel, if_pos hsmall]
      cases l with
      | nil => exact List.Pairwise.nil
      | cons a tail =>
        cases tail with
        | nil => simp
        | cons b tail2 => simp at hsmall
    · simp only [quickSortFuel, if_neg hsmall]
      have hlenscan : ((l.set (l.length / 2)
          (l.getD (l.length - 1) default)).dropLast).length = l.length - 1 :=
        scanned_length l
      have hleft : (((l.set (l.length / 2) (l.getD (l.length - 1) default)).dropLast).filter
          (fun p => p.lt_lex (l.getD (l.length / 2) default))).length ≤ fuel := by
        have := List.length_filter_le
          (fun p => p.lt_lex (l.getD (l.length / 2) default))
          ((l.set (l.length / 2) (l.getD (l.length - 1) default)).dropLast)
        omega
      have hright : (((l.set (l.length / 2) (l.getD (l.length - 1) default)).dropLast).filter
          (fun p => !(p.lt_lex (l.getD (l.length / 2) default)))).length ≤ fuel := by
        have := List.length_filter_le
          (fun p => !(p.lt_lex (l.getD (l.length / 2) default)))
          ((l.set (l.length / 2) (l.getD (l.length - 1) default)).dropLast)
        omega
      have hmemleft : ∀ a ∈ quickSortFuel fuel
          (((l.set (l.length / 2) (l.getD (l.length - 1) default)).dropLast).filter
            (fun p => p.lt_lex (l.getD (l.length / 2) default))),
          (l.getD (l.length / 2) default).gt_lex a = true := by
        intro a ha
        have := (quickSortFuel_perm fuel _ hleft).mem_iff.mp ha
        exact (List.mem_filter.mp this).2
      have hmemright : ∀ b ∈ quickSortFuel fuel
          (((l.set (l.length / 2) (l.getD (l.length - 1) default)).dropLast).filter
            (fun p => !(p.lt_lex (l.getD (l.length / 2) default)))),
          (l.getD (l.length / 2) default).gt_lex b = false := by
        intro b hb
        have hmem := (quickSortFuel_perm fuel _ hright).mem_iff.mp hb
        have hflt := (List.mem_filter.mp hmem).2
        have : b.lt_lex (l.getD (l.length / 2) default) = false := by
          cases hval : b.lt_lex (l.getD (l.length / 2) default) with
          | false => rfl
          | true => rw [hval] at hflt; cases hflt
        exact this
      rw [List.pairwise_append]
      refine ⟨ih _ hleft, ?_, ?_⟩
      · rw [List.pairwise_cons]
        exact ⟨hmemright, ih _ hright⟩
      · intro a ha b hb
        rcases List.mem_cons.mp hb with heq | hb'
        · subst heq
          exact not_gt_lex_of_gt_lex a _ (hmemleft a ha)
        · exact lex_lt_le_trans a _ b (hmemleft a ha) (hmemright b hb')

/-- C9: `quick_sort` terminates on every finite list (it is a total function
whose recursion bound, the list length, always suffices), and its result is a
permutation of the input arranged in non-decreasing lexicographic order
(`x` compared exactly first, then `y` exactly). -/
theorem quick_sort_perm_sorted (l : List Point) :
    List.Perm (quick_sort l) l ∧
    (quick_sort l).Pairwise (fun a b => a.gt_lex b = false) :=
  ⟨quickSortFuel_perm l.length l (le_refl _),
    quickSortFuel_sorted l.length l (le_refl _)⟩

/-- A zero determinant classifies as `InLine` (the tolerance check accepts an
exact zero). -/
theorem direction_inline_of_det_zero (p1 p2 p3 : Point) (h : detTriple p1 p2 p3 = 0) :
    direction p1 p2 p3 = Turn.InLine := by
  simp only [direction, h]
  have happ : approx 0 0 = true := by decide
  rw [happ]
  simp

/-- On a stack of points drawn from an exactly collinear set, the pop phase of
`half_hull` always pops down to the bottom element. -/
theorem popStep_collinear (S : List Point) (hS : AllCollinear S) (pt : Point) (hpt : pt ∈ S) :
    ∀ (stack : List Point) (hne : stack ≠ []), (∀ x ∈ stack, x ∈ S) →
      popStep pt stack = [stack.getLast hne] := by
  intro stack
  induction stack with
  | nil => intro hne _; cases hne rfl
  | cons p1 tail ih =>
    intro hne hsub
    cases tail with
    | nil => rfl
    | cons p2 rest =>
      have hdir : direction p2 p1 pt = Turn.InLine := by
        apply direction_inline_of_det_zero
        exact hS p2 (hsub p2 (by simp)) p1 (hsub p1 (by simp)) pt hpt
      show (if direction p2 p1 pt = Turn.Right then p1 :: p2 :: rest
        else popStep pt (p2 :: rest)) = _
      rw [if_neg (by rw [hdir]; intro hc; cases hc)]
      rw [ih (by simp) (fun x hx => hsub x (List.mem_cons_of_mem p1 hx))]
      congr 1

/-- Folding the `half_hull` loop over collinear points keeps only the first
point pushed and the most recent point. -/
theorem half_hull_fold_collinear (S : List Point) (hS : AllCollinear S) :
    ∀ (l : List Point) (p a0 : Point), p ∈ S → a0 ∈ S → (∀ x ∈ l, x ∈ S) →
      l.foldl (fun acc pt => pt :: popStep pt acc) [p, a0] =
        (p :: l).getLast (by simp) :: [a0] := by
  intro l
  induction l with
  | nil =>
    intro p a0 _ _ _
    simp
  | cons q rest ih =>
    intro p a0 hp ha0 hsub
    have hstep : (fun acc pt => pt :: popStep pt acc) [p, a0] q = [q, a0] := by
      show q :: popStep q [p, a0] = [q, a0]
      rw [popStep_collinear S hS q (hsub q (by simp)) [p, a0] (by simp)
        (by intro x hx; rcases List.mem_cons.mp hx with rfl | hx2
            · exact hp
            · rcases List.mem_cons.mp hx2 with rfl | hx3
              · exact ha0
              · cases hx3)]
      simp
    show List.foldl (fun acc pt => pt :: popStep pt acc)
      ((fun acc pt => pt :: popStep pt acc) [p, a0] q) rest = _
    rw [hstep, ih q a0 (hsub q (by simp)) ha0 (fun x hx => hsub x (by simp [hx]))]
    congr 1

/-- On an exactly collinear point list of length at least two, `half_hull`
returns just the first and last points. -/
theorem half_hull_collinear (S : List Point) (hS : AllCollinear S)
    (l : List Point) (hsub : ∀ x ∈ l, x ∈ S) (h2 : 2 ≤ l.length) (hne : l ≠ []) :
    half_hull l = l.head hne :: [l.getLast hne] := by
  cases l with
  | nil => cases hne rfl
  | cons x tail =>
    cases tail with
    | nil => simp at h2
    | cons y rest =>
      show ((x :: y :: rest).foldl (fun acc pt => pt :: popStep pt acc) []).reverse = _
      have hinit : (x :: y :: rest).foldl (fun acc pt => pt :: popStep pt acc) [] =
          rest.foldl (fun acc pt => pt :: popStep pt acc) [y, x] := rfl
      rw [hinit, half_hull_fold_collinear S hS rest y x (hsub y (by simp)) (hsub x (by simp))
        (fun z hz => hsub z (by simp [hz]))]
      simp [List.getLast_cons]

/-- C7: `convex_hull` returns `none` — not an error — for fewer than 3 input
points, and likewise for every exactly collinear input: both half hulls
collapse to the extreme points, the 3-point ring fails the polygon
construction, and the failure is swallowed as `none`. -/
theorem convex_hull_degenerate_none (pts : List Point)
    (h : pts.length < 3 ∨ AllCollinear pts) : convex_hull pts = none := by
  by_cases hlt : pts.length < 3
  · simp only [convex_hull, if_pos hlt]
  · have hcol : AllCollinear pts := by
      rcases h with h | h
      · exact absurd h hlt
      · exact h
    simp only [convex_hull, if_neg hlt]
    have hperm : List.Perm (sort_lex pts) pts := quickSortFuel_perm _ _ (le_refl _)
    have hlen : (sort_lex pts).length = pts.length := hperm.length_eq
    have hsub : ∀ x ∈ sort_lex pts, x ∈ pts := fun x hx => hperm.mem_iff.mp hx
    have hne : sort_lex pts ≠ [] := List.ne_nil_of_length_pos (by omega)
    have hrevne : (sort_lex pts).reverse ≠ [] := by simp [hne]
    have hh1 := half_hull_collinear pts hcol (sort_lex pts) hsub (by omega) hne
    have hh2 := half_hull_collinear pts hcol (sort_lex pts).reverse
      (fun x hx => hsub x (List.mem_reverse.mp hx)) (by simp; omega) hrevne
    rw [hh1, hh2]
    simp [Polygon.new, Polygon.from_points]

/-- C7 witness: three collinear points produce no hull. -/
theorem convex_hull_degenerate_none_witness :
    convex_hull [⟨0, 0⟩, ⟨1, 1⟩, ⟨2, 2⟩] = none :=
  convex_hull_degenerate_none [⟨0, 0⟩, ⟨1, 1⟩, ⟨2, 2⟩] (Or.inr (by decide))

end GeomRs
